import Mathlib

/-!
Verification development for the cascading-markup transpiler (CML → HTML).

The repository contains two generations of the engine:
* a class-based AST (`AstFileNode` / `AstElementNode` / `AstTextNode` /
  `AstSource`) with a scanning loop in `AstFileNode.parse`;
* an older `parse.ts`-style variant with plain-object nodes, a recursive
  `parse`, a `validateHtmlNode` normalizer and a `stringify` serializer.

Both are embedded below.  JavaScript strings are modelled as `List Char`
(`JStr`) where character-level scanning makes proofs tractable, and as Lean
`String` in the normalizer/serializer heap model where only whole-string
operations occur.  JavaScript object mutation (the normalizer mutates nodes
shared between the root and the freshly built `html` node) is modelled by
explicit state passing over a heap: nodes are addressed by their index in a
store (`List` of node records), so aliasing behaves exactly as in the source.
-/

/-- JavaScript strings, modelled as lists of characters. -/
abbrev JStr := List Char

/-! ## `encode` (src/src/Ast/encode.ts)

`text.replace(/[<>&"]/gu, match => ...)` — a single pass over the string that
replaces each of the four characters by its entity.  A single-pass regex
replace over one-character matches is exactly a character-wise flat map. -/

/-- The replacement for a single character in `encode`. -/
def encodeChar (c : Char) : JStr :=
  if c = '<' then "&lt;".data
  else if c = '>' then "&gt;".data
  else if c = '&' then "&amp;".data
  else if c = '"' then "&quot;".data
  else [c]

/-- `encode` from src/src/Ast/encode.ts: replace `< > & "` by entities. -/
def encode (s : JStr) : JStr := (s.map encodeChar).flatten

/-! ## Text node serialization (`AstTextNode.innerHtml`, src/unnamed/part_000)

`this.name.split(/(?<characterEscape>\\(?:\\\\)*n)/u)` splits the stored text
on the escape separator (the regex matches, at the leftmost feasible
position, a run of backslashes of odd length followed by `n`); because the
group captures, the separators themselves appear between the parts.  Each
part is then rendered: a part that is exactly `\n` becomes `<br>`, a part
beginning with a backslash loses that backslash, and the part is
HTML-encoded. -/

/-- Length of the leading run of backslashes. -/
def bsRun : JStr → Nat
  | [] => 0
  | c :: r => if c = '\\' then bsRun r + 1 else 0

/-- If the separator regex `\\(?:\\\\)*n` matches at the head of `s`, the
length of the match.  At a given position the regex matches exactly when the
whole remaining run of backslashes has odd length and is followed by `n`
(consuming fewer backslashes would require the next character, a backslash,
to be `n`). -/
def sepLen (s : JStr) : Option Nat :=
  let r := bsRun s
  if r % 2 = 1 ∧ (s.drop r).headD ' ' = 'n' then some (r + 1) else none

/-- Leftmost match of the separator regex: returns
`(text before, separator, text after)`. -/
def findSep : JStr → Option (JStr × JStr × JStr)
  | [] => none
  | c :: rest =>
    match sepLen (c :: rest) with
    | some n => some ([], (c :: rest).take n, (c :: rest).drop n)
    | none =>
      match findSep rest with
      | some (b, sep, a) => some (c :: b, sep, a)
      | none => none

/-- `String.prototype.split` with a capturing group: the resulting parts
include the separators.  Fuelled by the length of the string (every
separator has length at least two, so the fuel never runs out). -/
def splitPartsF : Nat → JStr → List JStr
  | 0, s => [s]
  | fuel + 1, s =>
    match findSep s with
    | none => [s]
    | some (b, sep, a) => b :: sep :: splitPartsF fuel a

/-- The parts (texts and separators) of the stored text value. -/
def splitParts (s : JStr) : List JStr := splitPartsF s.length s

/-- Rendering of one part inside `AstTextNode.innerHtml`'s `forEach`:
`part === '\\n'` gives `<br>`; `part.startsWith('\\')` (the head is a
backslash) gives `encode(part.slice(1))`; otherwise `encode(part)`. -/
def renderPart (p : JStr) : JStr :=
  if p = ['\\', 'n'] then "<br>".data
  else if p.headD ' ' = '\\' then encode (p.drop 1)
  else encode p

/-- `AstTextNode.innerHtml` (src/unnamed/part_000 lines 156-170). -/
def astTextInnerHtml (name : JStr) : JStr :=
  ((splitParts name).map renderPart).flatten

/-- Modelled from the claim's words (C6's reference decode-then-escape
function): a `\n` escape whose backslash is itself unescaped (preceded by an
even number of backslashes) becomes a literal `<br>`; any other
backslash-escaped character decodes to the character itself; everything else
is HTML-escaped. -/
def refDecodeEscape : JStr → JStr
  | [] => []
  | '\\' :: 'n' :: rest => "<br>".data ++ refDecodeEscape rest
  | '\\' :: c :: rest => encodeChar c ++ refDecodeEscape rest
  | c :: rest => encodeChar c ++ refDecodeEscape rest

/-! ## JavaScript whitespace, trim, toLowerCase (ASCII fragment) -/

/-- JavaScript's `\s` / trim character class, restricted to the characters
that can occur in this development (the full class also contains exotic
Unicode spaces, which never appear in the sources or claims). -/
def jsIsSpace (c : Char) : Bool :=
  c = ' ' || c = '\t' || c = '\n' || c = '\r' || c = '\x0b' || c = '\x0c' ||
  c = ' '

/-- `String.prototype.trimStart`. -/
def jsTrimStart (s : JStr) : JStr := s.dropWhile (fun c => jsIsSpace c)

/-- `String.prototype.trimEnd`. -/
def jsTrimEnd (s : JStr) : JStr :=
  (s.reverse.dropWhile (fun c => jsIsSpace c)).reverse

/-- `String.prototype.trim`. -/
def jsTrim (s : JStr) : JStr := jsTrimStart (jsTrimEnd s)

/-- `String.prototype.toLowerCase`, character-wise (ASCII fragment; the
attribute keys and values in play are ASCII). -/
def jsToLowerChar (c : Char) : Char :=
  if 'A' ≤ c ∧ c ≤ 'Z' then Char.ofNat (c.toNat + 32) else c

/-- `toLowerCase` on a whole string. -/
def jsToLower (s : JStr) : JStr := s.map jsToLowerChar

/-! ## Element serialization (src/src/Ast/AstElementNode.ts) -/

/-- `AstAttribute` (src/unnamed/part_004): a key/value pair. -/
structure AstAttribute where
  key : JStr
  value : JStr
deriving DecidableEq, Repr

/-- The `voidElements` list (src/src/Ast/AstElementNode.ts lines 5-21). -/
def voidElements : List JStr :=
  ["area", "base", "br", "col", "embed", "hr", "img", "keygen", "input",
   "link", "meta", "param", "source", "track", "wbr"].map String.data

/-- Does the encoded attribute value force quotation marks?  The source
tests `encodedValue.match(/[<>'"\s]/u)`. -/
def needsQuoteChar (c : Char) : Bool :=
  c = '<' || c = '>' || c = '\'' || c = '"' || jsIsSpace c

/-- Rendering of a single attribute inside `AstElementNode.outerHtml`
(lines 79-97): boolean shorthand when the value is empty or a
case-insensitive match of the key, otherwise `key="encoded"` when the
encoded value needs quotation marks and `key=encoded` when not. -/
def attrHtml (a : AstAttribute) : JStr :=
  if a.value = [] ∨ jsToLower a.value = jsToLower a.key then a.key
  else
    let encodedValue := encode a.value
    if encodedValue.any needsQuoteChar then
      (a.key ++ '=' :: '"' :: encodedValue) ++ ['"']
    else a.key ++ '=' :: encodedValue

/-- The start tag `` `<${`${this.name} ${attributes}`.trim()}>` `` where
`attributes` is the space-joined list of rendered attributes. -/
def startTagOf (name : JStr) (attrs : List AstAttribute) : JStr :=
  '<' :: jsTrim (name ++ ' ' :: List.intercalate [' '] (attrs.map attrHtml)) ++ ['>']

/-- A node of the class-based AST as far as serialization observes it:
an element (tag name, attributes, children) or a text node. -/
inductive CNode where
  | element (name : JStr) (attributes : List AstAttribute) (children : List CNode)
  | text (value : JStr)

mutual

/-- `outerHtml` of a class-based node: text nodes render through
`AstTextNode.innerHtml`; element nodes render the start tag, then —
unless the element is void and childless — the children and the end tag
(src/src/Ast/AstElementNode.ts lines 77-110). -/
def cnodeOuterHtml : CNode → JStr
  | .text v => astTextInnerHtml v
  | .element name attrs children =>
    let startTag := startTagOf name attrs
    if children.length = 0 ∧ name ∈ voidElements then startTag
    else (startTag ++ cnodesInner children) ++ '<' :: '/' :: name ++ ['>']

/-- `innerHtml`: the concatenated `outerHtml` of the children. -/
def cnodesInner : List CNode → JStr
  | [] => []
  | c :: cs => cnodeOuterHtml c ++ cnodesInner cs

end

/-! ## Selector grammar (`AstElementNode.parse`, src/src/Ast/AstElementNode.ts)

The selector regex is
`^(?=[^\s{])(?<selector>(?<tagName>(?:(?![#.[\]{};])\S)+)?(?<id>#(?:(?![#.[\]{};])\S)+)?(?<classNames>(?:\.(?:(?![#.[\]{};])\S)+)+)?(?<attributeSelector>(?:\[(?:(?<string>(?<quotationMark>"|').*?(?<![^\\]\\(?:\\\\)*)\7)|.)*?\]))?)`.
Each component is matched by a dedicated function below; since the character
class excludes `# . [`, the greedy components never need backtracking into
one another. -/

/-- The character class `(?![#.[\]{};])\S`: non-whitespace and not one of
the seven selector metacharacters. -/
def isSelChar (c : Char) : Bool :=
  !(jsIsSpace c) && !(['#', '.', '[', ']', '{', '}', ';'].contains c)

/-- A JavaScript line terminator (which `.` does not match). -/
def isLineTerm (c : Char) : Bool :=
  c = '\n' || c = '\r' || c = ' ' || c = ' '

/-- All candidate match lengths (shortest first) of the quoted-string regex
`("|')(?<content>.*?)(?<![^\\]\\(?:\\\\)*)\2` anchored at the start of the
input: `j` is the index inside the string body, `run` the length of the run
of backslashes immediately before the current character.  A quote character
closes the string when the run before it is even; the lazy `.*?` yields the
candidates in increasing order; a line terminator ends the enumeration
because `.` cannot match it. -/
def quotedCandidatesAux (q : Char) : JStr → Nat → Nat → List Nat
  | [], _, _ => []
  | c :: r, j, run =>
    if c = q ∧ run % 2 = 0 then (j + 2) :: quotedCandidatesAux q r (j + 1) 0
    else if isLineTerm c then []
    else quotedCandidatesAux q r (j + 1) (if c = '\\' then run + 1 else 0)

/-- Candidate total lengths of a quoted string starting at the head of `s`. -/
def quotedCandidates (s : JStr) : List Nat :=
  match s with
  | c :: r => if c = '"' ∨ c = '\'' then quotedCandidatesAux c r 0 0 else []
  | [] => []

/-- The interior of the attribute selector `\[(?:(?<string>…)|.)*?\]`:
number of characters consumed up to and including the closing `]`, or
`none` when the group cannot match.  The lazy repetition tries to close at
every position first; on a quote, the string alternative is tried with each
candidate closing in order (`findSome?` — regex backtracking), falling back
to `.` consuming the single quote character; `.` cannot consume a line
terminator.  Fuelled: each recursive call strictly shrinks the string, so
fuel `length + 1` suffices. -/
def attrInnerF : Nat → JStr → Option Nat
  | 0, _ => none
  | _ + 1, [] => none
  | fuel + 1, c :: r =>
    if c = ']' then some 1
    else if c = '"' ∨ c = '\'' then
      match (quotedCandidates (c :: r)).findSome?
          (fun n => (attrInnerF fuel ((c :: r).drop n)).map (n + ·)) with
      | some n => some n
      | none =>
        if isLineTerm c then none
        else (attrInnerF fuel r).map (· + 1)
    else if isLineTerm c then none
    else (attrInnerF fuel r).map (· + 1)

/-- The `id` component `(?<id>#(?:(?![#.[\]{};])\S)+)?`: the capture
includes the leading `#`. -/
def matchId (s : JStr) : Option JStr :=
  match s with
  | '#' :: r =>
    let t := r.takeWhile isSelChar
    if t = [] then none else some ('#' :: t)
  | _ => none

/-- The `classNames` component `(?:\.(?:(?![#.[\]{};])\S)+)+?` (greedy
repetition): returns the captured text (possibly empty, meaning no match)
and the rest of the input.  Fuelled: every iteration consumes at least the
dot and one fragment character, so fuel `length` suffices. -/
def matchClassesF : Nat → JStr → JStr × JStr
  | 0, s => ([], s)
  | fuel + 1, s =>
    match s with
    | '.' :: r =>
      let t := r.takeWhile isSelChar
      if t = [] then ([], '.' :: r)
      else
        let p := matchClassesF fuel (r.dropWhile isSelChar)
        (('.' :: t) ++ p.1, p.2)
    | s => ([], s)

/-- The `classNames` component. -/
def matchClasses (s : JStr) : JStr × JStr := matchClassesF s.length s

/-- The `attributeSelector` component: the capture includes both brackets. -/
def matchAttrSel (s : JStr) : Option JStr :=
  match s with
  | '[' :: r =>
    match attrInnerF (r.length + 1) r with
    | some n => some (s.take (n + 1))
    | none => none
  | _ => none

/-- The captured groups of the selector regex. -/
structure SelMatch where
  selLen : Nat
  tagName : Option JStr
  idCap : Option JStr
  classNames : Option JStr
  attrSel : Option JStr
deriving DecidableEq, Repr

/-- The whole selector regex: `none` exactly when the lookahead
`(?=[^\s{])` fails (empty input, leading whitespace, or `{`).  Note that
all four components are optional, so a successful match may have length
zero. -/
def selMatch (s : JStr) : Option SelMatch :=
  match s with
  | [] => none
  | c :: _ =>
    if jsIsSpace c || c = '{' then none
    else
      let tn := s.takeWhile isSelChar
      let s1 := s.dropWhile isSelChar
      let idCap := matchId s1
      let s2 := s1.drop ((idCap.getD []).length)
      let cls := matchClasses s2
      let attr := matchAttrSel cls.2
      some
        { selLen := tn.length + (idCap.getD []).length + cls.1.length +
            (attr.getD []).length
          tagName := if tn = [] then none else some tn
          idCap := idCap
          classNames := if cls.1 = [] then none else some cls.1
          attrSel := attr }

/-! ## Attribute block interior and the class-based `parseAttributes` -/

/-- The key character class `[^=\s]`. -/
def isKeyChar (c : Char) : Bool := !(c = '=') && !(jsIsSpace c)

/-- The `matchAll` over the attribute block interior with
`(?<key>[^=\s]+)(?:\s*=\s*(?:(?<quotationMark>"|')(?<quotedValue>.*?)(?<![^\\]\\(?:\\\\)*)\2|(?<unquotedValue>\S+)))?`:
successive matches, scanning left to right.  A match starts at the first
key character; the optional value part consumes `\s*=\s*` and then either a
(lazy, so shortest) quoted string or a run of non-whitespace; if the value
part cannot match, the match is the bare key and scanning resumes directly
after the key.  The pushed value is `quotedValue ?? unquotedValue ?? ''`.
Fuelled: every recursive call strictly shrinks the input. -/
def attrPairsF : Nat → JStr → List AstAttribute
  | 0, _ => []
  | _ + 1, [] => []
  | fuel + 1, c :: r =>
    if !(isKeyChar c) then attrPairsF fuel r
    else
      let key := (c :: r).takeWhile isKeyChar
      let s1 := (c :: r).dropWhile isKeyChar
      let s2 := s1.dropWhile (fun c => jsIsSpace c)
      match s2 with
      | '=' :: r2 =>
        let s3 := r2.dropWhile (fun c => jsIsSpace c)
        match quotedCandidates s3 with
        | n :: _ => ⟨key, (s3.drop 1).take (n - 2)⟩ :: attrPairsF fuel (s3.drop n)
        | [] =>
          let uq := s3.takeWhile (fun c => !(jsIsSpace c))
          if uq = [] then ⟨key, []⟩ :: attrPairsF fuel s1
          else ⟨key, uq⟩ :: attrPairsF fuel (s3.dropWhile (fun c => !(jsIsSpace c)))
      | _ => ⟨key, []⟩ :: attrPairsF fuel s1

/-! ## JavaScript sorts

`Array.prototype.sort()` with no comparator sorts strings by UTF-16 code
units, lexicographically, and is stable; `lexLe`/`insertLe`/`sortLe` model
it as a stable insertion sort.  The final
`attributes.sort((a, b) => a.key.localeCompare(b.key))` is modelled with the
same code-unit order: on the all-lowercase ASCII keys appearing in this
development `localeCompare` induces the same order. -/

/-- Code-unit lexicographic `≤` on strings. -/
def lexLe : JStr → JStr → Bool
  | [], _ => true
  | _ :: _, [] => false
  | a :: as, b :: bs =>
    if a.toNat < b.toNat then true
    else if b.toNat < a.toNat then false
    else lexLe as bs

/-- Stable insertion into a sorted list. -/
def insertLe (x : JStr) : List JStr → List JStr
  | [] => [x]
  | y :: ys => if lexLe x y then x :: y :: ys else y :: insertLe x ys

/-- Stable insertion sort: the model of `Array.prototype.sort()`. -/
def sortLe : List JStr → List JStr
  | [] => []
  | x :: xs => insertLe x (sortLe xs)

/-- Stable insertion of an attribute by key. -/
def insertAttr (x : AstAttribute) : List AstAttribute → List AstAttribute
  | [] => [x]
  | y :: ys => if lexLe x.key y.key then x :: y :: ys else y :: insertAttr x ys

/-- `attributes.sort((a, b) => a.key.localeCompare(b.key))`. -/
def sortAttrs : List AstAttribute → List AstAttribute
  | [] => []
  | x :: xs => insertAttr x (sortAttrs xs)

/-- `String.prototype.split` on a single separator character. -/
def jsSplitChar (sep : Char) : JStr → List JStr
  | [] => [[]]
  | c :: r =>
    match jsSplitChar sep r with
    | p :: ps => if c = sep then [] :: p :: ps else (c :: p) :: ps
    | [] => [[c]]

/-- `parseAttributes` of the class-based variant
(src/src/Ast/AstElementNode.ts lines 31-63).  The `id` capture is pushed
verbatim (it still carries its leading `#` — mirrored from the source);
the class value is the split-on-`.`, default-sorted, space-joined, trimmed
class capture; the bracketed pairs follow; finally the whole list is
sorted by key. -/
def parseAttributesCls (idCap : Option JStr) (classNames : Option JStr)
    (attributeSelector : Option JStr) : List AstAttribute :=
  let a1 : List AstAttribute :=
    match idCap with
    | some i => [⟨"id".data, i⟩]
    | none => []
  let a2 :=
    match classNames with
    | some cns =>
      a1 ++ [⟨"class".data, jsTrim (List.intercalate [' '] (sortLe (jsSplitChar '.' cns)))⟩]
    | none => a1
  let a3 :=
    match attributeSelector with
    | some sel => a2 ++ attrPairsF (sel.length + 1) ((sel.drop 1).dropLast)
    | none => a2
  sortAttrs a3

/-- The observable result of `AstElementNode.parse`: tag name (defaulting
to `div`), attributes, and the length of the matched selector, which
becomes the node's source-position length via
`updatePosition(startIndex, startIndex + (selector?.length ?? 1))`.
The `?? 1` fallback is dead: when the regex matches, the `selector` group
is always defined (possibly as the empty string, of length zero). -/
structure ElementParseResult where
  name : JStr
  attributes : List AstAttribute
  posLen : Nat
deriving DecidableEq, Repr

/-- `AstElementNode.parse` (src/src/Ast/AstElementNode.ts lines 131-166). -/
def astElementParse (code : JStr) (startIndex : Nat) : Option ElementParseResult :=
  match selMatch (code.drop startIndex) with
  | none => none
  | some m =>
    some { name := m.tagName.getD "div".data
           attributes := parseAttributesCls m.idCap m.classNames m.attrSel
           posLen := m.selLen }

/-- `AstTextNode.parse` (src/unnamed/part_000 lines 197-225): match the
quoted-string regex at the cursor; the stored name is the raw string
content, the consumed length includes both quotes. -/
def astTextParse (code : JStr) (startIndex : Nat) : Option (JStr × Nat) :=
  match quotedCandidates (code.drop startIndex) with
  | n :: _ => some (((code.drop startIndex).drop 1).take (n - 2), n)
  | [] => none

/-! ## The scanning loop (`AstFileNode.parse`, src/unnamed/part_001)

The class-based AST forms a graph (parent and scope back-references), so it
is embedded as a heap: nodes addressed by index into a store. -/

/-- A node of the class-based AST.  `ntype` distinguishes `File`,
`Element` and `Text`; `scope` and `parent` are store indices. -/
structure GNode where
  ntype : String
  name : JStr
  attributes : List AstAttribute
  children : List Nat
  parent : Option Nat
  scope : Nat
  posLen : Nat
deriving DecidableEq, Repr, Inhabited

/-- Node lookup (total; all accesses in the development are in bounds). -/
def getG (store : List GNode) (i : Nat) : GNode := store.getD i default

/-- Replace a node's child list. -/
def setChildren (store : List GNode) (i : Nat) (cs : List Nat) : List GNode :=
  store.set i { getG store i with children := cs }

/-- The runtime failures the scanning loop can produce: the `}` branch
dereferences `currentNode.parent!` (a `TypeError` when the parent is
`null` — the branch the source marks `Todo(gimjb): Properly handle
error`), and `AstTextNode.addChild` throws
`'Text nodes cannot have children.'`. -/
inductive JsRuntimeError where
  | nullAccess
  | textChildren
deriving DecidableEq, Repr

/-- The mutable state of the scanning loop. -/
structure LoopState where
  store : List GNode
  cur : Nat
  scope : Nat
  i : Nat

/-- `slice(i).search(/\S|$/u)`: the number of leading whitespace
characters. -/
def countLeadingWS (s : JStr) : Nat := (s.takeWhile (fun c => jsIsSpace c)).length

/-- One fuelled run of the scanning loop of `AstFileNode.parse`
(src/unnamed/part_001 lines 53-88).  `none` means the fuel ran out (the
loop had not finished after that many iterations); otherwise the result is
the final store or a runtime error. -/
def astFileParseF (code : JStr) : Nat → LoopState → Option (Except JsRuntimeError (List GNode))
  | 0, _ => none
  | fuel + 1, st =>
    if st.i < code.length then
      let i := st.i + countLeadingWS (code.drop st.i)
      let c := (code.drop i).headD '\x00'
      if c = ';' then
        let sc := (getG st.store st.cur).scope
        astFileParseF code fuel { st with cur := sc, scope := sc, i := i + 1 }
      else if c = '{' then
        astFileParseF code fuel { st with scope := st.cur, i := i + 1 }
      else if c = '}' then
        match (getG st.store st.cur).parent with
        | none => some (.error .nullAccess)
        | some p =>
          astFileParseF code fuel { st with scope := (getG st.store p).scope, i := i + 1 }
      else
        match astTextParse code i with
        | some (content, n) =>
          let newId := st.store.length
          let store1 := st.store ++ [⟨"Text", content, [], [], some st.cur, st.scope, n⟩]
          if (getG store1 st.cur).ntype = "Text" then some (.error .textChildren)
          else
            let store2 := setChildren store1 st.cur ((getG store1 st.cur).children ++ [newId])
            astFileParseF code fuel { store := store2, cur := newId, scope := st.scope, i := i + n }
        | none =>
          match astElementParse code i with
          | some e =>
            let newId := st.store.length
            let store1 := st.store ++
              [⟨"Element", e.name, e.attributes, [], some st.cur, st.scope, e.posLen⟩]
            if (getG store1 st.cur).ntype = "Text" then some (.error .textChildren)
            else
              let store2 := setChildren store1 st.cur ((getG store1 st.cur).children ++ [newId])
              astFileParseF code fuel
                { store := store2, cur := newId, scope := st.scope, i := i + e.posLen }
          | none => some (.ok st.store)
    else some (.ok st.store)

/-- `new AstFileNode(code).parse()` with the given iteration fuel: the
store starts with the file node (its own scope, no parent, no children). -/
def astFileParse (code : JStr) (fuel : Nat) : Option (Except JsRuntimeError (List GNode)) :=
  astFileParseF code fuel
    { store := [⟨"File", [], [], [], none, 0, code.length⟩], cur := 0, scope := 0, i := 0 }

/-! ## Position tracker (`AstSource.updatePosition`, src/unnamed/part_000) -/

/-- `String.prototype.split(/\r?\n/u)`: `\r\n` is a single separator, a
lone `\n` is a separator, a lone `\r` is not. -/
def splitLineBreaks : JStr → List JStr
  | [] => [[]]
  | '\r' :: '\n' :: r => [] :: splitLineBreaks r
  | '\n' :: r => [] :: splitLineBreaks r
  | c :: r =>
    match splitLineBreaks r with
    | p :: ps => (c :: p) :: ps
    | [] => [[c]]

/-- One boundary of a source span. -/
structure PosPoint where
  column : Nat
  index : Nat
  line : Nat
deriving DecidableEq, Repr

/-- `SourcePosition` (the `end` field is named `endPos`; `end` is reserved
in Lean). -/
structure SourcePosition where
  endPos : PosPoint
  length : Nat
  start : PosPoint
deriving DecidableEq, Repr

/-- `AstSource.updatePosition` (src/unnamed/part_000 lines 107-134):
`none` models the thrown range errors (`startIndex > endIndex`,
`endIndex > code.length`; `startIndex < 0` cannot arise over `Nat`).  The
`end.column` is computed from `code.slice(startIndex, endIndex)` — the
node's own span — while `start.column`, `start.line` and `end.line` are
computed from `code.slice(0, ·)`. -/
def updatePosition (code : JStr) (startIndex endIndex : Nat) : Option SourcePosition :=
  if startIndex > endIndex then none
  else if endIndex > code.length then none
  else
    some
      { endPos :=
          { column :=
              ((splitLineBreaks ((code.drop startIndex).take (endIndex - startIndex))).getLastD []).length + 1
            index := endIndex
            line := (splitLineBreaks (code.take endIndex)).length }
        length := endIndex - startIndex
        start :=
          { column := ((splitLineBreaks (code.take startIndex)).getLastD []).length + 1
            index := startIndex
            line := (splitLineBreaks (code.take startIndex)).length } }

/-- Number of `\r?\n` line breaks in a string (reference definition used by
the claim: `line` is the 1-based count of line breaks up to the index plus
one). -/
def countLineBreaks : JStr → Nat
  | '\r' :: '\n' :: r => countLineBreaks r + 1
  | '\n' :: r => countLineBreaks r + 1
  | _ :: r => countLineBreaks r
  | [] => 0

/-- Position just after the last `\r?\n` in the string (`0` when there is
none): `pos` counts consumed characters, `best` is the latest break end. -/
def lastBreakEndAux : JStr → Nat → Nat → Nat
  | [], _, best => best
  | '\r' :: '\n' :: r, pos, _ => lastBreakEndAux r (pos + 2) (pos + 2)
  | '\n' :: r, pos, _ => lastBreakEndAux r (pos + 1) (pos + 1)
  | _ :: r, pos, best => lastBreakEndAux r (pos + 1) best

/-- Position just after the last `\r?\n` line break. -/
def lastBreakEnd (s : JStr) : Nat := lastBreakEndAux s 0 0

/-- Reference line number at an index (claim wording): 1-based count of
line breaks up to the index, plus one. -/
def refLine (code : JStr) (i : Nat) : Nat := countLineBreaks (code.take i) + 1

/-- Reference column at an index (claim wording): the offset from the last
line break before the index, plus one — computed from the start of the full
source. -/
def refColumn (code : JStr) (i : Nat) : Nat := i - lastBreakEnd (code.take i) + 1

/-! ## The `parse.ts`-variant AST heap, normalizer and serializer

Nodes (`AstNode` of src/unnamed/part_006) are plain mutable objects whose
`children` arrays are shared between the root and the `html` node built by
the normalizer, so they are embedded as a heap: a store of node records
addressed by index.  The `location` and `parent` fields are omitted: no
function under test reads them (`location` is only copied around, `parent`
is only written). -/

/-- `AttributePair` (src/unnamed/part_006 lines 1-4). -/
structure AttributePair where
  name : String
  value : String
deriving DecidableEq, Repr

/-- A `parse.ts`-variant AST node: `stype` is `"element"` or `"text"`,
`svalue` the text value, `schildren` the store indices of the children. -/
structure SNode where
  stype : String
  sname : String
  svalue : String
  sattrs : List AttributePair
  schildren : List Nat
deriving DecidableEq, Repr, Inhabited

/-- The object heap. -/
abbrev SStore := List SNode

/-- Node lookup (total; all accesses in the development are in bounds). -/
def getS (store : SStore) (i : Nat) : SNode := store.getD i default

/-- Replace a node's child array. -/
def setSChildren (store : SStore) (i : Nat) (cs : List Nat) : SStore :=
  store.set i { getS store i with schildren := cs }

/-- `children.find(child => child.name === nm)`. -/
def findChildByName (store : SStore) (pid : Nat) (nm : String) : Option Nat :=
  (getS store pid).schildren.find? (fun c => (getS store c).sname == nm)

/-- The result record of `hasMetaInfo`. -/
structure MetaInfo where
  metaCharset : Bool
  metaViewport : Bool
  metaXuaCompatible : Bool
  title : Bool
deriving DecidableEq, Repr

/-- `hasMetaInfo` (src/unnamed/part_008 lines 21-51).  Note the source
compares the `http-equiv` attribute's *value* against the string
`'http-equiv=X-UA-Compatible'` — kept verbatim. -/
def hasMetaInfo (store : SStore) (nodes : List Nat) : MetaInfo :=
  nodes.foldl
    (fun acc nid =>
      let node := getS store nid
      if node.sname = "title" then { acc with title := true }
      else if node.sname = "meta" then
        node.sattrs.foldl
          (fun a attr =>
            if attr.name = "charset" then { a with metaCharset := true }
            else if attr.name = "http-equiv" ∧ attr.value = "http-equiv=X-UA-Compatible" then
              { a with metaXuaCompatible := true }
            else if attr.name = "name" ∧ attr.value = "viewport" then
              { a with metaViewport := true }
            else a)
          acc
      else acc)
    ⟨false, false, false, false⟩

/-- `addMetaTag` (src/unnamed/part_008 lines 59-68): allocate a fresh
`meta` element and unshift it into the head's children. -/
def addMetaTag (store : SStore) (head : Nat) (attributes : List AttributePair) : SStore :=
  let store1 := store ++ [⟨"element", "meta", "", attributes, []⟩]
  setSChildren store1 head (store.length :: (getS store1 head).schildren)

/-- `validateMeta` (src/unnamed/part_008 lines 75-114): prepend the missing
`charset`, `X-UA-Compatible` and `viewport` metas in that order.  The
`title` branch builds a `title` element with an `Untitled` text child but
never adds it to `head.children` — mirrored exactly: the two nodes are
allocated and left unattached. -/
def validateMeta (store : SStore) (head : Nat) : SStore :=
  let hasMeta := hasMetaInfo store (getS store head).schildren
  let s1 :=
    if !hasMeta.metaCharset then addMetaTag store head [⟨"charset", "UTF-8"⟩] else store
  let s2 :=
    if !hasMeta.metaXuaCompatible then
      addMetaTag s1 head [⟨"http-equiv", "X-UA-Compatible"⟩, ⟨"content", "IE=edge"⟩]
    else s1
  let s3 :=
    if !hasMeta.metaViewport then
      addMetaTag s2 head [⟨"name", "viewport"⟩, ⟨"content", "width=device-width, initial-scale=1"⟩]
    else s2
  if !hasMeta.title then
    let textId := s3.length
    (s3 ++ [⟨"text", "text", "Untitled", [], []⟩]) ++ [⟨"element", "title", "", [], [textId]⟩]
  else s3

/-- `validateHeadNode` (src/unnamed/part_008 lines 121-139): find or create
`head` among the children of the argument, validate its metas, and — when
freshly created — unshift it into the argument's children. -/
def validateHeadNode (store : SStore) (html : Nat) : SStore :=
  match findChildByName store html "head" with
  | some h => validateMeta store h
  | none =>
    let headId := store.length
    let s1 := store ++ [⟨"element", "head", "", [], []⟩]
    let s2 := validateMeta s1 headId
    setSChildren s2 html (headId :: (getS s2 html).schildren)

/-- `validateBodyNode` (src/unnamed/part_008 lines 147-174): find or create
`body` among `html`'s children, push every direct child of `root` that is
not `html`/`head`/`body` into it, and — when freshly created — push it into
`html`'s children. -/
def validateBodyNode (store : SStore) (root html : Nat) : SStore :=
  let found := findChildByName store html "body"
  let bodyId := found.getD store.length
  let s1 :=
    match found with
    | some _ => store
    | none => store ++ [⟨"element", "body", "", [], []⟩]
  let moved := (getS s1 root).schildren.filter
    (fun c =>
      !((getS s1 c).sname == "html" || (getS s1 c).sname == "head" ||
        (getS s1 c).sname == "body"))
  let s2 := setSChildren s1 bodyId ((getS s1 bodyId).schildren ++ moved)
  match found with
  | some _ => s2
  | none => setSChildren s2 html ((getS s2 html).schildren ++ [bodyId])

/-- `validateHtmlNode` (src/unnamed/part_008 lines 192-217): find or create
`html` (re-homing any `head`/`body` children of the root into a fresh
`html`), then `validateBodyNode(root, html)`, then — with `root` as the
argument — `validateHeadNode(root)`.  Returns the updated heap and the
`html` node's address. -/
def validateHtmlNode (store : SStore) (root : Nat) : SStore × Nat :=
  let found := findChildByName store root "html"
  let htmlId := found.getD store.length
  let s1 :=
    match found with
    | some _ => store
    | none =>
      let s := store ++ [⟨"element", "html", "", [], []⟩]
      let rehomed := (getS s root).schildren.filter
        (fun c => (getS s c).sname == "head" || (getS s c).sname == "body")
      setSChildren s htmlId ((getS s htmlId).schildren ++ rehomed)
  let s2 := validateBodyNode s1 root htmlId
  let s3 := validateHeadNode s2 root
  (s3, htmlId)

/-- `validateHeadNode` of the variant bundled with `stringify`
(src/src/Ast/AstElementNode.ts lines 447-463): identical except that a
freshly created `head` is returned but never attached anywhere. -/
def validateHeadNodeS (store : SStore) (html : Nat) : SStore :=
  match findChildByName store html "head" with
  | some h => validateMeta store h
  | none =>
    let headId := store.length
    let s1 := store ++ [⟨"element", "head", "", [], []⟩]
    validateMeta s1 headId

/-- `validateBodyNode` of the `stringify` variant
(src/src/Ast/AstElementNode.ts lines 465-493): identical except that a
freshly created `body` is returned but never attached to `html`. -/
def validateBodyNodeS (store : SStore) (root html : Nat) : SStore :=
  let found := findChildByName store html "body"
  let bodyId := found.getD store.length
  let s1 :=
    match found with
    | some _ => store
    | none => store ++ [⟨"element", "body", "", [], []⟩]
  let moved := (getS s1 root).schildren.filter
    (fun c =>
      !((getS s1 c).sname == "html" || (getS s1 c).sname == "head" ||
        (getS s1 c).sname == "body"))
  setSChildren s1 bodyId ((getS s1 bodyId).schildren ++ moved)

/-- `validateHtmlNode` of the `stringify` variant
(src/src/Ast/AstElementNode.ts lines 511-536): find or create `html`
(re-homing `head`/`body` children of the root), then `validateHeadNode(root)`,
then `validateBodyNode(root, html)`. -/
def validateHtmlNodeS (store : SStore) (root : Nat) : SStore × Nat :=
  let found := findChildByName store root "html"
  let htmlId := found.getD store.length
  let s1 :=
    match found with
    | some _ => store
    | none =>
      let s := store ++ [⟨"element", "html", "", [], []⟩]
      let rehomed := (getS s root).schildren.filter
        (fun c => (getS s c).sname == "head" || (getS s c).sname == "body")
      setSChildren s htmlId ((getS s htmlId).schildren ++ rehomed)
  let s2 := validateHeadNodeS s1 root
  let s3 := validateBodyNodeS s2 root htmlId
  (s3, htmlId)

/-- `replaceAll` with a single-character pattern: character-wise
substitution. -/
def replaceAllChar (pat : Char) (rep : JStr) (s : JStr) : JStr :=
  (s.map (fun c => if c = pat then rep else [c])).flatten

/-- `encodeString` (src/src/Ast/AstElementNode.ts lines 304-310): the
`replaceAll` chain, mirrored pass by pass and in order — the `&` of an
`&lt;` introduced by the first pass is itself re-replaced by the later
`&amp;` pass, exactly as in the source. -/
def encodeString (s : JStr) : JStr :=
  replaceAllChar '"' "&quot;".data
    (replaceAllChar '&' "&amp;".data
      (replaceAllChar '>' "&gt;".data
        (replaceAllChar '<' "&lt;".data s)))

/-- `selfClosingTags` (src/src/Ast/AstElementNode.ts line 322). -/
def selfClosingTags : List String := ["meta", "link", "img", "br", "hr", "input"]

/-- `stringifyNode` (src/src/Ast/AstElementNode.ts lines 330-350),
fuelled on recursion depth (`""` on fuel exhaustion; the development only
evaluates it on concrete shallow trees).  `stringifyArray` — mapping
`stringify` over the children and joining on `''` — is inlined as
map-and-flatten. -/
def stringifyNodeF : Nat → SStore → Nat → JStr
  | 0, _, _ => []
  | fuel + 1, store, nid =>
    let node := getS store nid
    if node.sname = "root" then (node.schildren.map (stringifyNodeF fuel store)).flatten
    else if node.stype = "text" then encodeString node.svalue.data
    else
      let result := '<' :: node.sname.data ++ ' ' ::
        (node.sattrs.map
          (fun a => (a.name.data ++ '=' :: '"' :: encodeString a.value.data) ++ ['"', ' '])).flatten
      if node.schildren.length = 0 ∧ node.sname ∈ selfClosingTags then
        (jsTrim result ++ [' ', '/', '>'])
      else
        ((jsTrimEnd result ++ '>' :: (node.schildren.map (stringifyNodeF fuel store)).flatten) ++
          '<' :: '/' :: node.sname.data ++ ['>'])

/-- The banner prepended by `stringifyRoot`. -/
def cmlBanner : String :=
  "<!--\n  Made with Cascading Markup Language (CML).\n  https://github.com/godismyjudgebro/cascading-markup\n-->\n<!DOCTYPE html>"

/-- `stringifyRoot` (src/src/Ast/AstElementNode.ts lines 544-556): banner,
doctype, then the stringified `html` node produced by `validateHtmlNode`
(the `stringify`-variant one).  The updated heap is returned alongside the
output, because `validateHtmlNode` mutates nodes reachable from the root —
that is the side effect a second render observes. -/
def stringifyRootS (fuel : Nat) (store : SStore) (root : Nat) : SStore × JStr :=
  let p := validateHtmlNodeS store root
  (p.1, cmlBanner.data ++ stringifyNodeF fuel p.1 p.2)

/-- A faithful readout of the tree rooted at a node, as a flat list with
close markers (injective on trees up to the fuel depth): used to compare
trees for structural equality. -/
def treeSig : Nat → SStore → Nat → List String
  | 0, _, _ => ["..."]
  | fuel + 1, store, nid =>
    let n := getS store nid
    ((n.stype :: n.sname :: n.svalue ::
      n.sattrs.map (fun a => a.name ++ "=" ++ a.value)) ++
      (n.schildren.map (treeSig fuel store)).flatten) ++ ["/"]

/-- A selector consisting only of class fragments: `.f₁.f₂…` (used to state
the class-attribute claim). -/
def classSelector (fs : List JStr) : JStr := (fs.map (fun f => '.' :: f)).flatten

/-- A string with no leading or trailing JavaScript whitespace (so that
`` `${name} ${attributes}`.trim() `` leaves it in place). -/
def noEdgeSpace (s : JStr) : Prop :=
  s ≠ [] ∧ jsIsSpace (s.headD ' ') = false ∧ jsIsSpace (s.getLastD ' ') = false

instance (s : JStr) : Decidable (noEdgeSpace s) := by
  unfold noEdgeSpace; infer_instance

/-! # Theorems -/

set_option maxRecDepth 100000

/-! ## Concrete documents used by the claims about the normalizer -/

/-- A parsed document (what `parse "p;"` produces): a root whose only
child is a `p` element. -/
def c1Doc : SStore := [⟨"element", "root", "", [], [1]⟩, ⟨"element", "p", "", [], []⟩]

/-- A parsed document (what `parse "head"` produces): a root whose only
child is an empty `head` element. -/
def c2Doc : SStore := [⟨"element", "root", "", [], [1]⟩, ⟨"element", "head", "", [], []⟩]

/-- A heap holding a single empty `head` element. -/
def c4Head : SStore := [⟨"element", "head", "", [], []⟩]

/-- C1: normalization is *not* idempotent.  On the document `root > p`,
the first `validateHtmlNode` returns an `html` whose only child is a
`body` holding `p` (and, as a side effect, unshifts a metadata-filled
`head` into the *root*); the second run re-homes that `head` under a fresh
`html` and — because `hasMetaInfo` compares the `http-equiv` value against
`'http-equiv=X-UA-Compatible'` while the inserted meta's value is
`'X-UA-Compatible'` — prepends a second `X-UA-Compatible` meta into the
same `head`.  The two normalized trees differ structurally. -/
theorem c1_normalize_not_idempotent :
    treeSig 20 (validateHtmlNode (validateHtmlNode c1Doc 0).1 0).1
        (validateHtmlNode (validateHtmlNode c1Doc 0).1 0).2 ≠
      treeSig 20 (validateHtmlNode c1Doc 0).1 (validateHtmlNode c1Doc 0).2 := by
  decide

/-- C2: rendering is *not* deterministic across repeated runs.  On the
document `root > head`, the first `stringifyRoot` mutates the `head` in
place (prepending the three metas) and emits three metas; the second run
fails to recognise the inserted `X-UA-Compatible` meta (the `hasMetaInfo`
value comparison can never match it) and emits four.  The two outputs are
not byte-identical. -/
theorem c2_render_not_deterministic :
    (stringifyRootS 20 c2Doc 0).2 ≠
      (stringifyRootS 20 (stringifyRootS 20 c2Doc 0).1 0).2 := by
  decide

/-- C4: `validateMeta` on a `head` with no `title` child produces a head
whose children are exactly the three prepended metas — no `title` element
is ever attached (the source builds `titleTag` but never pushes it into
`head.children`). -/
theorem c4_title_never_attached :
    ((getS (validateMeta c4Head 0) 0).schildren.map
        (fun c => (getS (validateMeta c4Head 0) c).sname)) = ["meta", "meta", "meta"] ∧
      "title" ∉ ((getS (validateMeta c4Head 0) 0).schildren.map
        (fun c => (getS (validateMeta c4Head 0) c).sname)) := by
  decide

/-- C10: a `}` at the document root does not fail with a positioned
`UnbalancedScope` error — the loop's `}` branch evaluates
`currentNode.parent!.scope` with a `null` parent, a bare `TypeError`
carrying no line/column information (the model's `JsRuntimeError` has no
`UnbalancedScope`-like constructor because the source defines no such
error). -/
theorem c10_root_brace_is_null_deref :
    astFileParse "\x7d".data 5 = some (.error .nullAccess) := rfl

/-- C5 counterexample: the selector `.foo.bar.foo` yields the class value
`"bar foo foo"` — the repeated fragment is *not* merged — and not the
deduplicated `"bar foo"` the claim states. -/
theorem c5_counterexample :
    (astElementParse ".foo.bar.foo".data 0).map (fun e => e.attributes) =
        some [⟨"class".data, "bar foo foo".data⟩] ∧
      "bar foo foo".data ≠ "bar foo".data := by
  decide

/-- C6 counterexample: on the stored text `\\n` (escaped backslash
followed by `n`) the serializer emits `<br>` — the split regex still fires
on the final backslash even though it is itself escaped — while the
claim's reference decode-then-escape function yields the literal `\n`. -/
theorem c6_counterexample :
    astTextInnerHtml ['\\', '\\', 'n'] = "<br>".data ∧
      refDecodeEscape ['\\', '\\', 'n'] = "\\n".data ∧
      astTextInnerHtml ['\\', '\\', 'n'] ≠ refDecodeEscape ['\\', '\\', 'n'] := by
  decide

/-- C7 counterexample: a void element (`br`) given an explicit text child
renders its children *and* a closing tag — serialization does emit a
closing tag for a void element with children, contrary to the claim. -/
theorem c7_counterexample :
    cnodeOuterHtml (.element "br".data [] [.text "x".data]) = "<br>x</br>".data ∧
      cnodeOuterHtml (.element "br".data [] [.text "x".data]) ≠ "<br>".data := by
  decide

/-- C9 counterexample: on source `"ab"` with span `[1, 2)`,
`updatePosition` computes `end.column = 2` (from the span's own text,
`"b"`), while the reference definition — offset from the last line break
before the index, computed from the start of the full source — gives
column 3. -/
theorem c9_counterexample :
    (updatePosition "ab".data 1 2).map (fun p => p.endPos.column) = some 2 ∧
      refColumn "ab".data 2 = 3 := by
  decide

/-! ## Heap access lemmas -/

/-- Appending a node to the store does not change existing entries. -/
theorem getG_append_lt (store : List GNode) (e : GNode) (i : Nat)
    (h : i < store.length) : getG (store ++ [e]) i = getG store i := by
  unfold getG
  exact List.getD_append store [e] default i h

/-- The freshly appended node sits at the old length. -/
theorem getG_append_self (store : List GNode) (e : GNode) :
    getG (store ++ [e]) store.length = e := by
  unfold getG
  simp [List.getD, List.getElem?_append_right (le_refl _)]

/-- An out-of-bounds access yields the default node. -/
theorem getG_oob (store : List GNode) (i : Nat) (h : store.length ≤ i) :
    getG store i = default := by
  unfold getG
  simp [List.getD, List.getElem?_eq_none h]

/-- `setChildren` never changes a node's `ntype`. -/
theorem getG_ntype_setChildren (s : List GNode) (i j : Nat) (cs : List Nat) :
    (getG (setChildren s i cs) j).ntype = (getG s j).ntype := by
  unfold setChildren getG
  by_cases hij : j = i
  · subst hij
    by_cases hj : j < s.length
    · simp [List.getD, List.getElem?_set_self hj]
    · rw [List.set_eq_of_length_le (Nat.le_of_not_lt hj)]
  · simp [List.getD, List.getElem?_set_ne (Ne.symm hij)]

/-- Appending a non-text node preserves "the current node is not a text
node", whatever the index. -/
theorem getG_ntype_append_ne (store : List GNode) (e : GNode) (i : Nat)
    (h : (getG store i).ntype ≠ "Text") (he : e.ntype ≠ "Text") :
    (getG (store ++ [e]) i).ntype ≠ "Text" := by
  rcases lt_trichotomy i store.length with hlt | heq | hgt
  · rw [getG_append_lt store e i hlt]; exact h
  · subst heq; rw [getG_append_self]; exact he
  · rw [getG_oob (store ++ [e]) i (by simpa using hgt)]
    intro hcon
    exact absurd hcon (by decide)

/-! ## C3: the scan loop does not terminate on `"#"` -/

/-- On input `"#"`, one loop iteration from cursor 0 matches an *empty*
selector (`selMatch` yields `selLen = 0`; the `?? 1` fallback never fires
because the `selector` group is defined), appends a fresh `div` element,
and leaves the cursor at 0: the loop never finishes, whatever the fuel. -/
theorem hashLoopDiverges (fuel : Nat) : ∀ (store : List GNode) (cur sc : Nat),
    (getG store cur).ntype ≠ "Text" →
    astFileParseF "#".data fuel ⟨store, cur, sc, 0⟩ = none := by
  induction fuel with
  | zero => intro store cur sc _; rfl
  | succ fuel ih =>
    intro store cur sc h
    have step : astFileParseF "#".data (fuel + 1) ⟨store, cur, sc, 0⟩ =
        (if (getG (store ++ [⟨"Element", "div".data, [], [], some cur, sc, 0⟩]) cur).ntype = "Text"
         then some (.error .textChildren)
         else
           astFileParseF "#".data fuel
             ⟨setChildren (store ++ [⟨"Element", "div".data, [], [], some cur, sc, 0⟩]) cur
                ((getG (store ++ [⟨"Element", "div".data, [], [], some cur, sc, 0⟩]) cur).children ++
                  [store.length]),
              store.length, sc, 0⟩) := rfl
    have h1 : (getG (store ++ [⟨"Element", "div".data, [], [], some cur, sc, 0⟩]) cur).ntype ≠ "Text" :=
      getG_ntype_append_ne store _ cur h (show ("Element" : String) ≠ "Text" by decide)
    rw [step, if_neg h1]
    apply ih
    rw [getG_ntype_setChildren, getG_append_self]
    exact show ("Element" : String) ≠ "Text" by decide

/-- C3: `AstFileNode.parse` is *not* total — on the one-character source
`"#"` the scan loop never terminates: the element grammar matches an empty
selector of length 0 at every iteration (the defensive `?? 1` fallback is
dead code because the matched `selector` group is the defined empty
string), so the cursor never advances and the fuelled loop returns `none`
(still running) for every fuel. -/
theorem c3_parse_diverges_on_hash : ∀ fuel : Nat,
    astFileParse "#".data fuel = none ∧
      (selMatch "#".data).map (fun m => m.selLen) = some 0 := by
  intro fuel
  constructor
  · show astFileParseF "#".data fuel
      ⟨[⟨"File", [], [], [], none, 0, "#".data.length⟩], 0, 0, 0⟩ = none
    exact hashLoopDiverges fuel _ 0 0 (by decide)
  · decide

/-! ## Trim lemmas -/

/-- `trimStart` is the identity when the head is not whitespace. -/
theorem jsTrimStart_cons_of (c : Char) (s : JStr) (h : jsIsSpace c = false) :
    jsTrimStart (c :: s) = c :: s := by
  simp [jsTrimStart, List.dropWhile_cons, h]

/-- `trimEnd` is the identity when the last character is not whitespace. -/
theorem jsTrimEnd_concat_of (s : JStr) (c : Char) (h : jsIsSpace c = false) :
    jsTrimEnd (s ++ [c]) = s ++ [c] := by
  simp [jsTrimEnd, List.dropWhile_cons, h]

/-- `getLastD` looks only at the right part of an append when it is
nonempty. -/
theorem getLastD_append_right (s t : List Char) (c : Char) (h : t ≠ []) :
    (s ++ t).getLastD c = t.getLastD c := by
  obtain ⟨x, hx⟩ := Option.isSome_iff_exists.mp (List.getLast?_isSome.mpr h)
  simp [List.getLastD_eq_getLast?, List.getLast?_append, hx]

/-- `trim` is the identity on a string with no edge whitespace. -/
theorem jsTrim_eq_self (s : JStr) (h : noEdgeSpace s) : jsTrim s = s := by
  obtain ⟨hne, hh, hl⟩ := h
  have hx := List.dropLast_concat_getLast hne
  have hlast : jsIsSpace (s.getLast hne) = false := by
    have hrw := getLastD_append_right s.dropLast [s.getLast hne] ' ' (by simp)
    rw [hx] at hrw
    rw [hrw] at hl
    simpa using hl
  have hEnd : jsTrimEnd s = s := by
    conv_lhs => rw [← hx]
    rw [jsTrimEnd_concat_of _ _ hlast, hx]
  rw [jsTrim, hEnd]
  obtain ⟨c, t, rfl⟩ : ∃ c t, s = c :: t := by
    cases s with
    | nil => exact absurd rfl hne
    | cons c t => exact ⟨c, t, rfl⟩
  have hc : jsIsSpace c = false := by simpa using hh
  exact jsTrimStart_cons_of c t hc

/-- Gluing a name and an attribute text with a space keeps both edges
non-whitespace. -/
theorem noEdgeSpace_glue (nm k : JStr) (h1 : noEdgeSpace nm) (h2 : noEdgeSpace k) :
    noEdgeSpace (nm ++ ' ' :: k) := by
  obtain ⟨hne1, hh1, hl1⟩ := h1
  obtain ⟨hne2, hh2, hl2⟩ := h2
  refine ⟨by simp, ?_, ?_⟩
  · obtain ⟨c, t, rfl⟩ : ∃ c t, nm = c :: t := by
      cases nm with
      | nil => exact absurd rfl hne1
      | cons c t => exact ⟨c, t, rfl⟩
    simpa using hh1
  · have h3 : (nm ++ ' ' :: k).getLastD ' ' = (' ' :: k).getLastD ' ' :=
      getLastD_append_right nm (' ' :: k) ' ' (by simp)
    have h4 : (' ' :: k).getLastD ' ' = k.getLastD ' ' := by
      have := getLastD_append_right [' '] k ' ' hne2
      simpa using this
    rw [h3, h4]
    exact hl2

/-! ## C7: void elements -/

/-- C7 (amended): a void element with *no* children renders as the bare
start tag with no closing tag; a void element that was given explicit
children renders — like any other element — its children followed by a
closing tag. -/
theorem c7_amended_void_elements :
    (∀ (nm : JStr) (attrs : List AstAttribute), nm ∈ voidElements →
        cnodeOuterHtml (.element nm attrs []) = startTagOf nm attrs) ∧
      (∀ (nm : JStr) (attrs : List AstAttribute) (cs : List CNode), cs ≠ [] →
        cnodeOuterHtml (.element nm attrs cs) =
          (startTagOf nm attrs ++ cnodesInner cs) ++ '<' :: '/' :: nm ++ ['>']) := by
  constructor
  · intro nm attrs hv
    simp [cnodeOuterHtml, hv]
  · intro nm attrs cs hcs
    have hlen : ¬(cs.length = 0 ∧ nm ∈ voidElements) := by
      rintro ⟨h0, _⟩
      exact hcs (List.length_eq_zero.mp h0)
    simp only [cnodeOuterHtml, if_neg hlen]

/-- Witness for the C7 theorem: `br` with no children renders `<br>`;
`br` with a text child renders `<br>x</br>`. -/
theorem c7_amended_void_elements_witness :
    ("br".data ∈ voidElements ∧
        cnodeOuterHtml (.element "br".data [] []) = startTagOf "br".data []) ∧
      (([CNode.text "x".data] : List CNode) ≠ [] ∧
        cnodeOuterHtml (.element "br".data [] [.text "x".data]) =
          (startTagOf "br".data [] ++ cnodesInner [.text "x".data]) ++
            '<' :: '/' :: "br".data ++ ['>']) :=
  ⟨⟨by decide, c7_amended_void_elements.1 "br".data [] (by decide)⟩,
    ⟨by simp, c7_amended_void_elements.2 "br".data [] [.text "x".data] (by simp)⟩⟩

/-! ## C8: boolean-attribute shorthand -/

/-- C8: an attribute whose value is empty or case-insensitively equal to
its key renders as the bare key; any other attribute renders as
`key=value` with the value HTML-escaped (double-quoted exactly when the
escaped value contains a character from `[<>'"\s]`); composed into
`outerHtml`, a single boolean attribute on a non-void-or-nonempty element
yields `<name key>…</name>`. -/
theorem c8_boolean_attribute_shorthand :
    (∀ (k v : JStr), (v = [] ∨ jsToLower v = jsToLower k) → attrHtml ⟨k, v⟩ = k) ∧
      (∀ (k v : JStr), ¬(v = [] ∨ jsToLower v = jsToLower k) →
        attrHtml ⟨k, v⟩ =
          if (encode v).any needsQuoteChar then (k ++ '=' :: '"' :: encode v) ++ ['"']
          else k ++ '=' :: encode v) ∧
      (∀ (nm k v : JStr) (cs : List CNode), noEdgeSpace nm → noEdgeSpace k →
        (v = [] ∨ jsToLower v = jsToLower k) → ¬(cs = [] ∧ nm ∈ voidElements) →
        cnodeOuterHtml (.element nm [⟨k, v⟩] cs) =
          (('<' :: (nm ++ ' ' :: k) ++ ['>']) ++ cnodesInner cs) ++ '<' :: '/' :: nm ++ ['>']) := by
  refine ⟨?_, ?_, ?_⟩
  · intro k v hb
    simp [attrHtml, hb]
  · intro k v hb
    simp [attrHtml, hb]
  · intro nm k v cs h1 h2 hb hnv
    have hattr : attrHtml ⟨k, v⟩ = k := by simp [attrHtml, hb]
    have hstart : startTagOf nm [⟨k, v⟩] = '<' :: (nm ++ ' ' :: k) ++ ['>'] := by
      rw [startTagOf]
      simp only [List.map_cons, List.map_nil, hattr, List.intercalate]
      rw [show List.intersperse [' '] [k] = [k] from rfl]
      simp only [List.flatten, List.append_nil]
      rw [jsTrim_eq_self _ (noEdgeSpace_glue nm k h1 h2)]
    have hlen : ¬(cs.length = 0 ∧ nm ∈ voidElements) := by
      rintro ⟨h0, hmem⟩
      exact hnv ⟨List.length_eq_zero.mp h0, hmem⟩
    simp only [cnodeOuterHtml, if_neg hlen, hstart]

/-- Witness for the C8 theorem: `checked=checked` and `checked=""` render
as bare `checked`; `<div checked></div>` end to end. -/
theorem c8_boolean_attribute_shorthand_witness :
    attrHtml ⟨"checked".data, "checked".data⟩ = "checked".data ∧
      attrHtml ⟨"checked".data, []⟩ = "checked".data ∧
      cnodeOuterHtml (.element "div".data [⟨"checked".data, "checked".data⟩] []) =
        "<div checked></div>".data := by
  refine ⟨c8_boolean_attribute_shorthand.1 "checked".data "checked".data (by decide),
    c8_boolean_attribute_shorthand.1 "checked".data [] (by decide), ?_⟩
  rw [c8_boolean_attribute_shorthand.2.2 "div".data "checked".data "checked".data []
    (by decide) (by decide) (by decide)
    (by rintro ⟨-, hmem⟩; exact absurd hmem (by decide))]
  decide

/-! ## C6: text escape rendering -/

/-- The separator regex cannot match anywhere in a backslash-free string. -/
theorem findSep_eq_none (s : JStr) (h : '\\' ∉ s) : findSep s = none := by
  induction s with
  | nil => rfl
  | cons c rest ih =>
    have hc : c ≠ '\\' := by
      intro hh
      exact h (by simp [hh])
    have hr : '\\' ∉ rest := by
      intro hm
      exact h (by simp [hm])
    simp [findSep, sepLen, bsRun, hc, ih hr]

/-- A backslash-free string is a single part. -/
theorem splitParts_no_bs (s : JStr) (h : '\\' ∉ s) : splitParts s = [s] := by
  unfold splitParts
  cases s.length with
  | zero => rfl
  | succ n => simp [splitPartsF, findSep_eq_none s h]

/-- C6 (amended): the serializer splits the stored text at each leftmost
run of backslashes of odd length followed by `n` (so after an escaped
backslash the escape still fires: two backslashes before `n` still yield a
`<br>`); a separator that is exactly `\n` renders as an unescaped `<br>`,
a longer separator — and any part that begins with a backslash — loses
only its single leading backslash; each part is then HTML-escaped.
Backslash escapes that are not at the start of a part are *not* decoded.
In particular a backslash-free text is simply HTML-escaped, and
`<b>&"` still serializes as `&lt;b&gt;&amp;&quot;`. -/
theorem c6_amended_escape_rendering :
    (∀ s : JStr, '\\' ∉ s → astTextInnerHtml s = encode s) ∧
      astTextInnerHtml "<b>&\"".data = "&lt;b&gt;&amp;&quot;".data ∧
      astTextInnerHtml "\\n".data = "<br>".data ∧
      astTextInnerHtml ['\\', '\\', 'n'] = "<br>".data ∧
      astTextInnerHtml ['\\', '\\', '\\', 'n'] = ['\\', '\\', 'n'] ∧
      astTextInnerHtml "a\\b".data = "a\\b".data ∧
      astTextInnerHtml "\\<x".data = "&lt;x".data := by
  refine ⟨?_, by decide, by decide, by decide, by decide, by decide, by decide⟩
  intro s h
  have h1 : s ≠ ['\\', 'n'] := by
    intro he
    rw [he] at h
    exact h (by decide)
  have h2 : s.head?.getD ' ' ≠ '\\' := by
    cases s with
    | nil => decide
    | cons c t =>
      intro hh
      exact h (by simp_all)
  simp [astTextInnerHtml, splitParts_no_bs s h, renderPart, h1, h2]

/-- Witness for the C6 theorem: a concrete backslash-free text renders as
its plain HTML escape. -/
theorem c6_amended_escape_rendering_witness :
    ('\\' ∉ "plain<text>".data) ∧
      astTextInnerHtml "plain<text>".data = encode "plain<text>".data :=
  ⟨by decide, c6_amended_escape_rendering.1 "plain<text>".data (by decide)⟩

/-! ## C9: position computations -/

/-- `getLastD` ignores its default on a nonempty list. -/
theorem getLastD_irrel (l : List (List Char)) (d e : List Char) (h : l ≠ []) :
    l.getLastD d = l.getLastD e := by
  obtain ⟨x, hx⟩ := Option.isSome_iff_exists.mp (List.getLast?_isSome.mpr h)
  simp [List.getLastD_eq_getLast?, hx]

/-- A character that does not open a `\r?\n` break leaves the break count
unchanged. -/
theorem countLineBreaks_cons_ne (c : Char) (r : JStr)
    (h1 : ∀ r1, c = '\r' → r = '\n' :: r1 → False) (h2 : c ≠ '\n') :
    countLineBreaks (c :: r) = countLineBreaks r := by
  conv_lhs => rw [countLineBreaks.eq_def]
  split
  · rename_i r1 heq
    injection heq with hc hr
    exact (h1 _ hc hr).elim
  · rename_i heq
    injection heq with hc hr
    exact absurd hc h2
  · rename_i x xs heq
    injection heq with hc hr
    rw [hr]
  · rename_i heq
    exact absurd heq (by simp)

/-- A character that does not open a `\r?\n` break only advances the
position counter of `lastBreakEndAux`. -/
theorem lastBreakEndAux_cons_ne (c : Char) (r : JStr) (pos best : Nat)
    (h1 : ∀ r1, c = '\r' → r = '\n' :: r1 → False) (h2 : c ≠ '\n') :
    lastBreakEndAux (c :: r) pos best = lastBreakEndAux r (pos + 1) best := by
  conv_lhs => rw [lastBreakEndAux.eq_def]
  split
  · rename_i heq
    exact absurd heq (by simp)
  · rename_i r1 heq
    injection heq with hc hr
    exact (h1 _ hc hr).elim
  · rename_i heq
    injection heq with hc hr
    exact absurd hc h2
  · rename_i x xs heq
    injection heq with hc hr
    rw [hr]

/-- The accumulator equation for `lastBreakEndAux`: with no break the
current best survives, otherwise the result is the offset of the last
break end relative to `pos`. -/
theorem lastBreakEndAux_eq (s : JStr) : ∀ pos best : Nat,
    lastBreakEndAux s pos best =
      if countLineBreaks s = 0 then best else pos + lastBreakEnd s := by
  induction s using splitLineBreaks.induct with
  | case1 =>
    intro pos best
    simp [lastBreakEndAux, countLineBreaks]
  | case2 r ih =>
    intro pos best
    have hcount : countLineBreaks ('\r' :: '\n' :: r) = countLineBreaks r + 1 := by
      simp [countLineBreaks]
    have hlbe : lastBreakEnd ('\r' :: '\n' :: r) =
        if countLineBreaks r = 0 then 2 else 2 + lastBreakEnd r := by
      unfold lastBreakEnd
      rw [show lastBreakEndAux ('\r' :: '\n' :: r) 0 0 = lastBreakEndAux r 2 2 from rfl, ih 2 2]
      by_cases h0 : countLineBreaks r = 0 <;> simp [h0, lastBreakEnd]
    rw [show lastBreakEndAux ('\r' :: '\n' :: r) pos best = lastBreakEndAux r (pos + 2) (pos + 2)
      from rfl, ih (pos + 2) (pos + 2), hcount, hlbe]
    by_cases h0 : countLineBreaks r = 0 <;> simp [h0] <;> omega
  | case3 r ih =>
    intro pos best
    have hcount : countLineBreaks ('\n' :: r) = countLineBreaks r + 1 := by
      simp [countLineBreaks]
    have hlbe : lastBreakEnd ('\n' :: r) =
        if countLineBreaks r = 0 then 1 else 1 + lastBreakEnd r := by
      unfold lastBreakEnd
      rw [show lastBreakEndAux ('\n' :: r) 0 0 = lastBreakEndAux r 1 1 from rfl, ih 1 1]
      by_cases h0 : countLineBreaks r = 0 <;> simp [h0, lastBreakEnd]
    rw [show lastBreakEndAux ('\n' :: r) pos best = lastBreakEndAux r (pos + 1) (pos + 1)
      from rfl, ih (pos + 1) (pos + 1), hcount, hlbe]
    by_cases h0 : countLineBreaks r = 0 <;> simp [h0] <;> omega
  | case4 c r h1 h2 p ps hps ih =>
    intro pos best
    have h2' : c ≠ '\n' := fun hc => h2 hc
    rw [lastBreakEndAux_cons_ne c r pos best h1 h2', ih (pos + 1) best,
      countLineBreaks_cons_ne c r h1 h2']
    have hlbe : lastBreakEnd (c :: r) =
        if countLineBreaks r = 0 then 0 else 1 + lastBreakEnd r := by
      unfold lastBreakEnd
      rw [lastBreakEndAux_cons_ne c r 0 0 h1 h2', ih 1 0]
      by_cases h0 : countLineBreaks r = 0 <;> simp [h0, lastBreakEnd]
    rw [hlbe]
    by_cases h0 : countLineBreaks r = 0 <;> simp [h0] <;> omega
  | case5 c r h1 h2 hps ih =>
    intro pos best
    have h2' : c ≠ '\n' := fun hc => h2 hc
    rw [lastBreakEndAux_cons_ne c r pos best h1 h2', ih (pos + 1) best,
      countLineBreaks_cons_ne c r h1 h2']
    have hlbe : lastBreakEnd (c :: r) =
        if countLineBreaks r = 0 then 0 else 1 + lastBreakEnd r := by
      unfold lastBreakEnd
      rw [lastBreakEndAux_cons_ne c r 0 0 h1 h2', ih 1 0]
      by_cases h0 : countLineBreaks r = 0 <;> simp [h0, lastBreakEnd]
    rw [hlbe]
    by_cases h0 : countLineBreaks r = 0 <;> simp [h0] <;> omega

/-- The number of parts produced by the `\r?\n` split is the break count
plus one: this is why the split-based `line` of `updatePosition` equals
the reference's `count of line breaks plus one`. -/
theorem splitLineBreaks_length (s : JStr) :
    (splitLineBreaks s).length = countLineBreaks s + 1 := by
  induction s using splitLineBreaks.induct with
  | case1 => rfl
  | case2 r ih =>
    rw [show splitLineBreaks ('\r' :: '\n' :: r) = [] :: splitLineBreaks r from rfl,
      show countLineBreaks ('\r' :: '\n' :: r) = countLineBreaks r + 1 from rfl]
    simp [ih]
  | case3 r ih =>
    rw [show splitLineBreaks ('\n' :: r) = [] :: splitLineBreaks r from rfl,
      show countLineBreaks ('\n' :: r) = countLineBreaks r + 1 from rfl]
    simp [ih]
  | case4 c r h1 h2 p ps hps ih =>
    have h2' : c ≠ '\n' := fun hc => h2 hc
    have hsplit : splitLineBreaks (c :: r) = (c :: p) :: ps := by
      conv_lhs => rw [splitLineBreaks.eq_def]
      split
      · rename_i heq
        exact absurd heq (by simp)
      · rename_i r1 heq
        injection heq with hc hr
        exact (h1 _ hc hr).elim
      · rename_i heq
        injection heq with hc hr
        exact absurd hc h2'
      · rename_i x xs heq
        injection heq with hc hr
        subst hc hr
        rw [hps]
    rw [hsplit, countLineBreaks_cons_ne c r h1 h2']
    rw [hps] at ih
    simpa using ih
  | case5 c r h1 h2 hps ih =>
    rw [hps] at ih
    exact absurd ih.symm (by simp)

/-- The split never produces an empty part list. -/
theorem splitLineBreaks_ne_nil (s : JStr) : splitLineBreaks s ≠ [] := by
  intro h
  have := splitLineBreaks_length s
  rw [h] at this
  exact absurd this.symm (by simp)

/-- The length of the last part of the `\r?\n` split is the distance from
the end of the last line break: this is why the split-based `column`
equals the reference's `offset from the last line break plus one`. -/
theorem splitLineBreaks_last_length (s : JStr) :
    ((splitLineBreaks s).getLastD []).length = s.length - lastBreakEnd s := by
  induction s using splitLineBreaks.induct with
  | case1 => rfl
  | case2 r ih =>
    rw [show splitLineBreaks ('\r' :: '\n' :: r) = [] :: splitLineBreaks r from rfl]
    rw [List.getLastD_cons, getLastD_irrel _ [] _ (splitLineBreaks_ne_nil r) |>.symm]
    rw [ih]
    have hlbe : lastBreakEnd ('\r' :: '\n' :: r) =
        if countLineBreaks r = 0 then 2 else 2 + lastBreakEnd r := by
      unfold lastBreakEnd
      rw [show lastBreakEndAux ('\r' :: '\n' :: r) 0 0 = lastBreakEndAux r 2 2 from rfl,
        lastBreakEndAux_eq r 2 2]
      by_cases h0 : countLineBreaks r = 0 <;> simp [h0, lastBreakEnd]
    rw [hlbe]
    by_cases h0 : countLineBreaks r = 0
    · have : lastBreakEnd r = 0 := by
        unfold lastBreakEnd
        rw [lastBreakEndAux_eq r 0 0]
        simp [h0]
      simp [h0, this]
    · simp only [if_neg h0]
      simp only [List.length_cons]
      omega
  | case3 r ih =>
    rw [show splitLineBreaks ('\n' :: r) = [] :: splitLineBreaks r from rfl]
    rw [List.getLastD_cons, getLastD_irrel _ [] _ (splitLineBreaks_ne_nil r) |>.symm]
    rw [ih]
    have hlbe : lastBreakEnd ('\n' :: r) =
        if countLineBreaks r = 0 then 1 else 1 + lastBreakEnd r := by
      unfold lastBreakEnd
      rw [show lastBreakEndAux ('\n' :: r) 0 0 = lastBreakEndAux r 1 1 from rfl,
        lastBreakEndAux_eq r 1 1]
      by_cases h0 : countLineBreaks r = 0 <;> simp [h0, lastBreakEnd]
    rw [hlbe]
    by_cases h0 : countLineBreaks r = 0
    · have : lastBreakEnd r = 0 := by
        unfold lastBreakEnd
        rw [lastBreakEndAux_eq r 0 0]
        simp [h0]
      simp [h0, this]
    · simp only [if_neg h0]
      simp only [List.length_cons]
      omega
  | case4 c r h1 h2 p ps hps ih =>
    have h2' : c ≠ '\n' := fun hc => h2 hc
    have hsplit : splitLineBreaks (c :: r) = (c :: p) :: ps := by
      conv_lhs => rw [splitLineBreaks.eq_def]
      split
      · rename_i heq
        exact absurd heq (by simp)
      · rename_i r1 heq
        injection heq with hc hr
        exact (h1 _ hc hr).elim
      · rename_i heq
        injection heq with hc hr
        exact absurd hc h2'
      · rename_i x xs heq
        injection heq with hc hr
        subst hc hr
        rw [hps]
    have hlbe : lastBreakEnd (c :: r) =
        if countLineBreaks r = 0 then 0 else 1 + lastBreakEnd r := by
      unfold lastBreakEnd
      rw [lastBreakEndAux_cons_ne c r 0 0 h1 h2', lastBreakEndAux_eq r 1 0]
      by_cases h0 : countLineBreaks r = 0 <;> simp [h0, lastBreakEnd]
    have hcount : countLineBreaks r = ps.length := by
      have := splitLineBreaks_length r
      rw [hps] at this
      simpa using this.symm
    rw [hsplit, hlbe]
    rw [hps] at ih
    by_cases h0 : countLineBreaks r = 0
    · have hpsnil : ps = [] := List.length_eq_zero.mp (hcount ▸ h0)
      subst hpsnil
      have hlbe0 : lastBreakEnd r = 0 := by
        unfold lastBreakEnd
        rw [lastBreakEndAux_eq r 0 0]
        simp [h0]
      have hp : p.length = r.length := by
        simpa [hlbe0] using ih
      simp only [if_pos h0, List.getLastD_cons, List.getLastD]
      simp [hp]
    · have hpsne : ps ≠ [] := by
        intro hnil
        rw [hnil] at hcount
        exact h0 (by simpa using hcount)
      have hstep : ((c :: p) :: ps).getLastD [] = (p :: ps).getLastD [] := by
        rw [List.getLastD_cons, List.getLastD_cons]
        exact getLastD_irrel ps (c :: p) p hpsne
      rw [hstep, ih]
      simp only [if_neg h0, List.length_cons]
      omega
  | case5 c r h1 h2 hps ih =>
    have := splitLineBreaks_length r
    rw [hps] at this
    exact absurd this.symm (by simp)

/-- C9 (amended): for every valid index pair, `updatePosition` computes
`start.line`, `start.column` and `end.line` exactly as the reference
definition over the full source (`line` = 1-based `\r?\n` count up to the
index plus one, `column` = offset from the last line break plus one), but
`end.column` is computed from the start of the node's *own span*: it
equals the reference column of the span's end measured as if the span text
were the whole source. -/
theorem c9_amended_position (code : JStr) (s e : Nat) (h1 : s ≤ e)
    (h2 : e ≤ code.length) :
    ∃ p, updatePosition code s e = some p ∧
      p.start.index = s ∧ p.endPos.index = e ∧ p.length = e - s ∧
      p.start.line = refLine code s ∧
      p.start.column = refColumn code s ∧
      p.endPos.line = refLine code e ∧
      p.endPos.column = refColumn ((code.drop s).take (e - s)) (e - s) := by
  have hnot1 : ¬s > e := not_lt.mpr h1
  have hnot2 : ¬e > code.length := not_lt.mpr h2
  unfold updatePosition
  rw [if_neg hnot1, if_neg hnot2]
  refine ⟨_, rfl, rfl, rfl, rfl, ?_, ?_, ?_, ?_⟩
  · exact splitLineBreaks_length _
  · show ((splitLineBreaks (code.take s)).getLastD []).length + 1 = refColumn code s
    rw [splitLineBreaks_last_length]
    have hs : (code.take s).length = s := by
      rw [List.length_take]
      exact Nat.min_eq_left (le_trans h1 h2)
    rw [hs]
    rfl
  · exact splitLineBreaks_length _
  · show ((splitLineBreaks ((code.drop s).take (e - s))).getLastD []).length + 1 =
      refColumn ((code.drop s).take (e - s)) (e - s)
    rw [splitLineBreaks_last_length]
    unfold refColumn
    have hlen : ((code.drop s).take (e - s)).length = e - s := by
      rw [List.length_take, List.length_drop]
      omega
    rw [hlen]
    rw [List.take_all_of_le (le_of_eq hlen)]

/-- Witness for the C9 theorem at source `"ab\ncd"`, span `[1, 4)`. -/
theorem c9_amended_position_witness :
    (1 ≤ 4 ∧ 4 ≤ "ab\ncd".data.length) ∧
      (∃ p, updatePosition "ab\ncd".data 1 4 = some p ∧
        p.start.index = 1 ∧ p.endPos.index = 4 ∧ p.length = 4 - 1 ∧
        p.start.line = refLine "ab\ncd".data 1 ∧
        p.start.column = refColumn "ab\ncd".data 1 ∧
        p.endPos.line = refLine "ab\ncd".data 4 ∧
        p.endPos.column =
          refColumn (("ab\ncd".data.drop 1).take (4 - 1)) (4 - 1)) :=
  ⟨⟨by decide, by decide⟩, c9_amended_position "ab\ncd".data 1 4 (by decide) (by decide)⟩

/-! ## C5: the class attribute -/

/-- Selector characters are not whitespace. -/
theorem isSelChar_not_space (c : Char) (h : isSelChar c = true) : jsIsSpace c = false := by
  unfold isSelChar at h
  rcases Bool.and_eq_true .. |>.mp h with ⟨h1, -⟩
  simpa using h1

/-- `lexLe` is total. -/
theorem lexLe_total : ∀ a b : JStr, lexLe a b = true ∨ lexLe b a = true := by
  intro a
  induction a with
  | nil => intro b; left; rfl
  | cons x xs ih =>
    intro b
    cases b with
    | nil => right; rfl
    | cons y ys =>
      by_cases h1 : x.toNat < y.toNat
      · left
        simp [lexLe, h1]
      · by_cases h2 : y.toNat < x.toNat
        · right
          simp [lexLe, h2]
        · rcases ih ys with h | h
          · left
            simp [lexLe, h1, h2, h]
          · right
            simp [lexLe, h1, h2, h]

/-- `lexLe` is transitive. -/
theorem lexLe_trans : ∀ a b c : JStr, lexLe a b = true → lexLe b c = true →
    lexLe a c = true := by
  intro a
  induction a with
  | nil => intro b c _ _; rfl
  | cons x xs ih =>
    intro b c hab hbc
    cases b with
    | nil => simp [lexLe] at hab
    | cons y ys =>
      cases c with
      | nil => simp [lexLe] at hbc
      | cons z zs =>
        simp only [lexLe] at hab hbc ⊢
        rcases Nat.lt_trichotomy x.toNat y.toNat with hxy | hxy | hxy
        · rcases Nat.lt_trichotomy y.toNat z.toNat with hyz | hyz | hyz
          · have hxz : x.toNat < z.toNat := Nat.lt_trans hxy hyz
            simp [hxz]
          · have hxz : x.toNat < z.toNat := hyz ▸ hxy
            simp [hxz]
          · have h1 : ¬y.toNat < z.toNat := by omega
            simp [h1, hyz] at hbc
        · rcases Nat.lt_trichotomy y.toNat z.toNat with hyz | hyz | hyz
          · have hxz : x.toNat < z.toNat := by omega
            simp [hxz]
          · have h1 : ¬x.toNat < y.toNat := by omega
            have h2 : ¬y.toNat < x.toNat := by omega
            have h3 : ¬y.toNat < z.toNat := by omega
            have h4 : ¬z.toNat < y.toNat := by omega
            have h5 : ¬x.toNat < z.toNat := by omega
            have h6 : ¬z.toNat < x.toNat := by omega
            simp only [if_neg h1, if_neg h2] at hab
            simp only [if_neg h3, if_neg h4] at hbc
            simp only [if_neg h5, if_neg h6]
            exact ih ys zs hab hbc
          · have h1 : ¬y.toNat < z.toNat := by omega
            simp [h1, hyz] at hbc
        · have h1 : ¬x.toNat < y.toNat := by omega
          simp [h1, hxy] at hab

/-- Insertion produces a permutation. -/
theorem insertLe_perm (x : JStr) : ∀ l : List JStr, List.Perm (insertLe x l) (x :: l) := by
  intro l
  induction l with
  | nil => exact List.Perm.refl _
  | cons y ys ih =>
    unfold insertLe
    by_cases h : lexLe x y = true
    · rw [if_pos h]
    · rw [if_neg h]
      exact List.Perm.trans (List.Perm.cons y ih) (List.Perm.swap x y ys)

/-- The modelled `Array.prototype.sort()` is a permutation: repeated class
fragments are all retained. -/
theorem sortLe_perm : ∀ l : List JStr, List.Perm (sortLe l) l := by
  intro l
  induction l with
  | nil => exact List.Perm.refl _
  | cons x xs ih =>
    exact List.Perm.trans (insertLe_perm x (sortLe xs)) (List.Perm.cons x ih)

/-- Membership across insertion. -/
theorem mem_insertLe (x z : JStr) (l : List JStr) (h : z ∈ insertLe x l) :
    z = x ∨ z ∈ l := by
  have := (insertLe_perm x l).mem_iff.mp h
  simpa using this

/-- Inserting into a sorted list keeps it sorted. -/
theorem insertLe_pairwise (x : JStr) : ∀ l : List JStr,
    l.Pairwise (fun a b => lexLe a b = true) →
    (insertLe x l).Pairwise (fun a b => lexLe a b = true) := by
  intro l
  induction l with
  | nil => intro _; simp [insertLe]
  | cons y ys ih =>
    intro h
    rcases List.pairwise_cons.mp h with ⟨hy, hys⟩
    unfold insertLe
    by_cases hxy : lexLe x y = true
    · rw [if_pos hxy]
      refine List.pairwise_cons.mpr ⟨?_, h⟩
      intro z hz
      rcases List.mem_cons.mp hz with rfl | hz
      · exact hxy
      · exact lexLe_trans x y z hxy (hy z hz)
    · rw [if_neg hxy]
      refine List.pairwise_cons.mpr ⟨?_, ih hys⟩
      intro z hz
      rcases mem_insertLe x z ys hz with rfl | hz
      · rcases lexLe_total z y with hzy | hyz
        · exact absurd hzy hxy
        · exact hyz
      · exact hy z hz

/-- The modelled `Array.prototype.sort()` sorts. -/
theorem sortLe_pairwise : ∀ l : List JStr,
    (sortLe l).Pairwise (fun a b => lexLe a b = true) := by
  intro l
  induction l with
  | nil => simp [sortLe]
  | cons x xs ih => exact insertLe_pairwise x (sortLe xs) ih

/-- The empty string is inserted at the front. -/
theorem insertLe_nil_front (l : List JStr) : insertLe [] l = [] :: l := by
  cases l with
  | nil => rfl
  | cons y ys =>
    unfold insertLe
    rw [if_pos (show lexLe [] y = true from rfl)]

/-- A run of selector characters followed by a non-selector character (or
nothing) is taken whole by `takeWhile`/`dropWhile`. -/
theorem takeWhile_frag (f rest : JStr) (hf : ∀ c ∈ f, isSelChar c = true)
    (hr : isSelChar (rest.headD '.') = false) :
    (f ++ rest).takeWhile isSelChar = f ∧ (f ++ rest).dropWhile isSelChar = rest := by
  induction f with
  | nil =>
    cases rest with
    | nil => exact ⟨rfl, rfl⟩
    | cons c r =>
      simp only [List.headD_cons] at hr
      simp [List.takeWhile_cons, List.dropWhile_cons, hr]
  | cons c cs ih =>
    have hc : isSelChar c = true := hf c (by simp)
    have hcs : ∀ x ∈ cs, isSelChar x = true := fun x hx => hf x (by simp [hx])
    rcases ih hcs with ⟨h1, h2⟩
    simp [List.takeWhile_cons, List.dropWhile_cons, hc, h1, h2]

/-- Unfolding of `classSelector` on a cons. -/
theorem classSelector_cons (f : JStr) (fs : List JStr) :
    classSelector (f :: fs) = ('.' :: f) ++ classSelector fs := rfl

/-- Each fragment contributes at least one character. -/
theorem length_le_classSelector (fs : List JStr) :
    fs.length ≤ (classSelector fs).length := by
  induction fs with
  | nil => simp [classSelector]
  | cons f fs ih =>
    rw [classSelector_cons]
    simp only [List.length_cons, List.length_append]
    omega

/-- On a pure class selector the `classNames` matcher captures everything
(given enough fuel: one unit per fragment). -/
theorem matchClassesF_classSelector (fs : List JStr) : ∀ fuel : Nat, fs.length ≤ fuel →
    (∀ f ∈ fs, f ≠ [] ∧ ∀ c ∈ f, isSelChar c = true) →
    matchClassesF fuel (classSelector fs) = (classSelector fs, []) := by
  induction fs with
  | nil =>
    intro fuel _ _
    cases fuel with
    | zero => rfl
    | succ n => rfl
  | cons f fs' ih =>
    intro fuel hf hg
    obtain ⟨fuel, rfl⟩ : ∃ n, fuel = n + 1 :=
      ⟨fuel - 1, by simp only [List.length_cons] at hf; omega⟩
    have hgf := hg f (by simp)
    have hgfs : ∀ g ∈ fs', g ≠ [] ∧ ∀ c ∈ g, isSelChar c = true :=
      fun g hgm => hg g (by simp [hgm])
    have hhead : isSelChar ((classSelector fs').headD '.') = false := by
      cases fs' with
      | nil => exact show isSelChar '.' = false by decide
      | cons g gs => exact show isSelChar '.' = false by decide
    rcases takeWhile_frag f (classSelector fs') hgf.2 hhead with ⟨ht, hd⟩
    rw [classSelector_cons]
    show matchClassesF (fuel + 1) ('.' :: (f ++ classSelector fs')) = _
    unfold matchClassesF
    simp only [ht, hd]
    rw [if_neg hgf.1]
    rw [ih fuel (by simp only [List.length_cons] at hf; omega) hgfs]

/-- `split('.')` walks through a dot-free prefix. -/
theorem jsSplitChar_dotfreeLead (f : JStr) (rest : JStr) (p : JStr) (ps : List JStr)
    (hf : '.' ∉ f) (h : jsSplitChar '.' rest = p :: ps) :
    jsSplitChar '.' (f ++ rest) = (f ++ p) :: ps := by
  induction f with
  | nil => simpa using h
  | cons c cs ih =>
    have hc : c ≠ '.' := fun hc => hf (by simp [hc])
    have hcs : '.' ∉ cs := fun hm => hf (by simp [hm])
    show jsSplitChar '.' (c :: (cs ++ rest)) = _
    unfold jsSplitChar
    rw [ih hcs]
    simp [hc]

/-- `split('.')` of a pure class selector: a leading empty fragment, then
the fragments themselves. -/
theorem jsSplitChar_classSelector (fs : List JStr)
    (hg : ∀ f ∈ fs, f ≠ [] ∧ ∀ c ∈ f, isSelChar c = true) :
    jsSplitChar '.' (classSelector fs) = [] :: fs := by
  induction fs with
  | nil => rfl
  | cons f fs' ih =>
    have hgf := hg f (by simp)
    have hgfs : ∀ g ∈ fs', g ≠ [] ∧ ∀ c ∈ g, isSelChar c = true :=
      fun g hgm => hg g (by simp [hgm])
    have hdotfree : '.' ∉ f := by
      intro hmem
      have := hgf.2 '.' hmem
      exact absurd this (by decide)
    rw [classSelector_cons]
    show jsSplitChar '.' ('.' :: (f ++ classSelector fs')) = _
    unfold jsSplitChar
    rw [jsSplitChar_dotfreeLead f (classSelector fs') [] fs' hdotfree (ih hgfs)]
    simp

/-- A nonempty all-selector-character fragment has no edge whitespace. -/
theorem frag_noEdgeSpace (g : JStr) (hne : g ≠ [])
    (hsel : ∀ c ∈ g, isSelChar c = true) : noEdgeSpace g := by
  refine ⟨hne, ?_, ?_⟩
  · obtain ⟨c, t, rfl⟩ : ∃ c t, g = c :: t := by
      cases g with
      | nil => exact absurd rfl hne
      | cons c t => exact ⟨c, t, rfl⟩
    simp only [List.headD_cons]
    exact isSelChar_not_space c (hsel c (by simp))
  · have hx := List.dropLast_concat_getLast hne
    have hlast : jsIsSpace (g.getLast hne) = false :=
      isSelChar_not_space _ (hsel _ (List.getLast_mem hne))
    have hrw := getLastD_append_right g.dropLast [g.getLast hne] ' ' (by simp)
    rw [hx] at hrw
    rw [hrw]
    simpa using hlast

/-- The space-joined list of good fragments has no edge whitespace. -/
theorem intercalate_noEdgeSpace (gs : List JStr) (hne : gs ≠ [])
    (hg : ∀ g ∈ gs, g ≠ [] ∧ ∀ c ∈ g, isSelChar c = true) :
    noEdgeSpace (List.intercalate [' '] gs) := by
  induction gs with
  | nil => exact absurd rfl hne
  | cons g gs' ih =>
    rcases hg g (by simp) with ⟨hgne, hgsel⟩
    cases gs' with
    | nil =>
      rw [show List.intercalate [' '] [g] = g by simp [List.intercalate, List.intersperse]]
      exact frag_noEdgeSpace g hgne hgsel
    | cons g2 gs2 =>
      have hcc : List.intercalate [' '] (g :: g2 :: gs2) =
          g ++ ' ' :: List.intercalate [' '] (g2 :: gs2) := by
        simp [List.intercalate, List.intersperse]
      rw [hcc]
      exact noEdgeSpace_glue g _ (frag_noEdgeSpace g hgne hgsel)
        (ih (by simp) (fun x hx => hg x (by simp [hx])))

/-- Trimming a single leading space off an edge-clean string. -/
theorem jsTrim_space_cons (w : JStr) (h : noEdgeSpace w) : jsTrim (' ' :: w) = w := by
  obtain ⟨hne, hh, hl⟩ := h
  have hx := List.dropLast_concat_getLast hne
  have hlast : jsIsSpace (w.getLast hne) = false := by
    have hrw := getLastD_append_right w.dropLast [w.getLast hne] ' ' (by simp)
    rw [hx] at hrw
    rw [hrw] at hl
    simpa using hl
  have hEnd : jsTrimEnd (' ' :: w) = ' ' :: w := by
    have hdec : (' ' :: w) = (' ' :: w.dropLast) ++ [w.getLast hne] := by
      rw [show (' ' :: w.dropLast) ++ [w.getLast hne] =
        ' ' :: (w.dropLast ++ [w.getLast hne]) from rfl, hx]
    rw [hdec, jsTrimEnd_concat_of _ _ hlast, ← hdec]
  rw [jsTrim, hEnd]
  obtain ⟨c, t, rfl⟩ : ∃ c t, w = c :: t := by
    cases w with
    | nil => exact absurd rfl hne
    | cons c t => exact ⟨c, t, rfl⟩
  have hc : jsIsSpace c = false := by simpa using hh
  show jsTrimStart (' ' :: c :: t) = c :: t
  simp [jsTrimStart, List.dropWhile_cons, hc, show jsIsSpace ' ' = true from rfl]

/-- The selector regex on a pure class selector: no tag name, no id, no
attribute block, and the `classNames` capture is the whole selector. -/
theorem selMatch_classSelector (f0 : JStr) (fs0 : List JStr)
    (hg : ∀ f ∈ f0 :: fs0, f ≠ [] ∧ ∀ c ∈ f, isSelChar c = true) :
    selMatch (classSelector (f0 :: fs0)) =
      some ⟨(classSelector (f0 :: fs0)).length, none, none,
        some (classSelector (f0 :: fs0)), none⟩ := by
  have hne : classSelector (f0 :: fs0) ≠ [] := by
    rw [classSelector_cons]
    simp
  have hcls : matchClasses (classSelector (f0 :: fs0)) =
      (classSelector (f0 :: fs0), []) := by
    unfold matchClasses
    exact matchClassesF_classSelector (f0 :: fs0) _ (length_le_classSelector _) hg
  have htake : (classSelector (f0 :: fs0)).takeWhile isSelChar = [] := by
    rw [classSelector_cons]
    show ('.' :: (f0 ++ classSelector fs0)).takeWhile isSelChar = []
    simp [List.takeWhile_cons, show isSelChar '.' = false from rfl]
  have hdropw : (classSelector (f0 :: fs0)).dropWhile isSelChar =
      classSelector (f0 :: fs0) := by
    rw [classSelector_cons]
    show ('.' :: (f0 ++ classSelector fs0)).dropWhile isSelChar = _
    simp [List.dropWhile_cons, show isSelChar '.' = false from rfl]
  have hid : matchId (classSelector (f0 :: fs0)) = none := by
    rw [classSelector_cons]
    rfl
  rw [show classSelector (f0 :: fs0) =
    '.' :: (f0 ++ classSelector fs0) from rfl] at htake hdropw hid hcls hne ⊢
  simp only [selMatch]
  rw [if_neg (by decide)]
  simp only [htake, hdropw, hid, Option.getD_none, List.length_nil, List.drop_zero, hcls,
    show matchAttrSel ([] : JStr) = none from rfl]
  simp only [if_neg hne]
  simp

/-- C5 (amended): a selector consisting of class fragments yields exactly
one `class` attribute whose value is the space-joined, code-unit-sorted
list of the fragments with repeated fragments *retained* — the sorted list
is a permutation of the fragment list (duplicates are not merged), in
lexicographically non-decreasing order.  (The claimed deduplication does
not happen; see the counterexample.) -/
theorem c5_amended_class_attribute (fs : List JStr) (hne : fs ≠ [])
    (hg : ∀ f ∈ fs, f ≠ [] ∧ ∀ c ∈ f, isSelChar c = true) :
    astElementParse (classSelector fs) 0 =
        some ⟨"div".data, [⟨"class".data, List.intercalate [' '] (sortLe fs)⟩],
          (classSelector fs).length⟩ ∧
      List.Perm (sortLe fs) fs ∧
      (sortLe fs).Pairwise (fun a b => lexLe a b = true) := by
  refine ⟨?_, sortLe_perm fs, sortLe_pairwise fs⟩
  obtain ⟨f0, fs0, rfl⟩ : ∃ f0 fs0, fs = f0 :: fs0 := by
    cases fs with
    | nil => exact absurd rfl hne
    | cons f0 fs0 => exact ⟨f0, fs0, rfl⟩
  have hsplit := jsSplitChar_classSelector (f0 :: fs0) hg
  have hgood_sorted : ∀ g ∈ sortLe (f0 :: fs0), g ≠ [] ∧ ∀ c ∈ g, isSelChar c = true :=
    fun g hgm => hg g ((sortLe_perm (f0 :: fs0)).mem_iff.mp hgm)
  obtain ⟨w, ws, hw⟩ : ∃ w ws, sortLe (f0 :: fs0) = w :: ws := by
    cases h : sortLe (f0 :: fs0) with
    | nil =>
      have hlen := (sortLe_perm (f0 :: fs0)).length_eq
      rw [h] at hlen
      simp at hlen
    | cons w ws => exact ⟨w, ws, rfl⟩
  have hval : jsTrim (List.intercalate [' ']
        (sortLe (jsSplitChar '.' (classSelector (f0 :: fs0))))) =
      List.intercalate [' '] (sortLe (f0 :: fs0)) := by
    rw [hsplit,
      show sortLe ([] :: f0 :: fs0) = insertLe [] (sortLe (f0 :: fs0)) from rfl,
      insertLe_nil_front, hw,
      show List.intercalate [' '] ([] :: w :: ws) =
        ' ' :: List.intercalate [' '] (w :: ws) by simp [List.intercalate, List.intersperse],
      jsTrim_space_cons _ (intercalate_noEdgeSpace (w :: ws) (by simp) (hw ▸ hgood_sorted))]
  unfold astElementParse
  rw [List.drop_zero, selMatch_classSelector f0 fs0 hg]
  show some (⟨"div".data,
    parseAttributesCls none (some (classSelector (f0 :: fs0))) none,
    (classSelector (f0 :: fs0)).length⟩ : ElementParseResult) = _
  rw [show parseAttributesCls none (some (classSelector (f0 :: fs0))) none =
    [⟨"class".data, jsTrim (List.intercalate [' ']
      (sortLe (jsSplitChar '.' (classSelector (f0 :: fs0)))))⟩] from rfl]
  rw [hval]

/-- Witness for the C5 theorem on the fragments of `.foo.bar.foo`. -/
theorem c5_amended_class_attribute_witness :
    (["foo".data, "bar".data, "foo".data] ≠ ([] : List JStr) ∧
        (∀ f ∈ ["foo".data, "bar".data, "foo".data],
          f ≠ ([] : JStr) ∧ ∀ c ∈ f, isSelChar c = true)) ∧
      (astElementParse (classSelector ["foo".data, "bar".data, "foo".data]) 0 =
          some ⟨"div".data,
            [⟨"class".data, List.intercalate [' ']
              (sortLe ["foo".data, "bar".data, "foo".data])⟩],
            (classSelector ["foo".data, "bar".data, "foo".data]).length⟩ ∧
        List.Perm (sortLe ["foo".data, "bar".data, "foo".data])
          ["foo".data, "bar".data, "foo".data] ∧
        (sortLe ["foo".data, "bar".data, "foo".data]).Pairwise
          (fun a b => lexLe a b = true)) :=
  ⟨⟨by decide, by decide⟩,
    c5_amended_class_attribute ["foo".data, "bar".data, "foo".data] (by decide) (by decide)⟩
